import Mathlib

/-!
# Verification of the mahalo-transpiler rewrite pipeline

This file is a shallow embedding, in Lean 4, of the source-to-source
rewriting stage of the mahalo transpiler (src/unnamed/part_001, with
src/index.ts as the earlier flat-edit revision where the claims cite it).

The embedding mirrors the SourceNode ("Fragment") composition engine:

* `TsNode` models the front-end syntax tree exactly as the walker
  consumes it: every node carries its `kind` (as `ts.Node.kind` does),
  its `pos` (= `getFullStart()`), `strt` (= `getStart()`, the position
  after leading trivia), `fin` (= `getEnd()`), and its `forEachChild`
  children in document order.  The source text is a separate `List Char`
  that the node spans index into, exactly as `sourceFile.text` is in the
  program, so `getText` is a substring operation as in TypeScript.
* `Chunk` models the `source-map` `SourceNode` tree: an ordered sequence
  of children, each an opaque literal text slice or a nested node.  The
  anchor position is irrelevant to the text-level claims and omitted.
* `createSourceNode` / `createSourceNodeLoop` embed the function
  `createSourceNode` of part_001 lines 178-201 (the Fragment Composer);
  `findEditsDispatch` embeds the rule dispatch of `findEdits`
  (lines 96-176) with the already-built default SourceNode passed in by
  the caller (in the program, `findEdits` builds it on entry and the
  rewrite helpers mutate it; passing it as an argument is the same
  computation, arranged so the recursion is structural);
  `createAssignment`, `createUpdateAssignment`, `createDeleteAssignment`
  embed the corresponding helpers (lines 203-323).
  The `ClassDeclaration` and `StringLiteral` arms of `findEdits` invoke
  the checker-dependent metadata/view rules; those are embedded
  separately below (`extendsClass`, `createInject`, `appendProperty`),
  and the expression-level walker here covers the node kinds the
  text-rewrite claims quantify over (`SKind.other` stands for every kind
  on which the dispatch of lines 101-175 takes no action).
-/

/-- The token kinds the dispatcher of `findEdits` inspects
(`ts.SyntaxKind` members; every other token kind is `otherTok`). -/
inductive TokKind : Type where
  | firstAssignment
  | plusEquals
  | minusEquals
  | asteriskEquals
  | slashEquals
  | percentEquals
  | asteriskAsteriskEquals
  | barEquals
  | ampersandEquals
  | greaterGreaterEquals
  | greaterGreaterGreaterEquals
  | lessLessEquals
  | caretEquals
  | plusPlus
  | minusMinus
  | otherTok
  deriving DecidableEq, Repr

/-- The syntax kinds the dispatcher distinguishes.  For
prefix/postfix unary expressions the operator is a field of the node in
TypeScript (`node.operator : ts.SyntaxKind`); it is carried as a payload
of the kind here.  A token node's kind is its token kind, as in
`ts.SyntaxKind`. -/
inductive SKind : Type where
  | binaryExpression
  | prefixUnaryExpression (operator : TokKind)
  | postfixUnaryExpression (operator : TokKind)
  | deleteExpression
  | propertyAccessExpression
  | elementAccessExpression
  | token (tok : TokKind)
  | other
  deriving DecidableEq, Repr

mutual
/-- A syntax-tree node as consumed by the walker: kind, full start
(`getFullStart`), start after leading trivia (`getStart`), end
(`getEnd`), and the `forEachChild` children in document order. -/
inductive TsNode : Type where
  | mk (kind : SKind) (pos strt fin : Nat) (children : TsNodeList)
  deriving Repr

/-- The `forEachChild` children of a node (a chained list so that the
mutually recursive walker is structurally recursive). -/
inductive TsNodeList : Type where
  | nil
  | cons (head : TsNode) (tail : TsNodeList)
  deriving Repr
end

def TsNode.kind : TsNode → SKind
  | .mk k _ _ _ _ => k

/-- `node.getFullStart()`. -/
def TsNode.pos : TsNode → Nat
  | .mk _ p _ _ _ => p

/-- `node.getStart()`. -/
def TsNode.strt : TsNode → Nat
  | .mk _ _ s _ _ => s

/-- `node.getEnd()` (= `getFullStart() + getFullWidth()`). -/
def TsNode.fin : TsNode → Nat
  | .mk _ _ _ f _ => f

def TsNode.children : TsNode → TsNodeList
  | .mk _ _ _ _ cs => cs

/-- A placeholder node (never produced by the front end; used only to
make child accessors total). -/
def dummyNode : TsNode := .mk .other 0 0 0 .nil

/-- The `i`-th child of a list (the typed field accessors
`left`/`operatorToken`/`right`/`expression`/`name`/`argumentExpression`
of the TypeScript AST are positional projections of `forEachChild`). -/
def TsNodeList.childAt : TsNodeList → Nat → TsNode
  | .nil, _ => dummyNode
  | .cons c _, 0 => c
  | .cons _ cs, n + 1 => cs.childAt n

/-- `text.substr(start, len)` on the source text (JS `substr` with a
non-negative start; a negative JS length gives the empty string, as
truncated subtraction does here). -/
def extract (text : List Char) (start len : Nat) : List Char :=
  (text.drop start).take len

/-- String literal as a character list. -/
def str (s : String) : List Char := s.data

/-- `node.getText()` = the source text from `getStart()` to `getEnd()`. -/
def TsNode.getText (text : List Char) (n : TsNode) : List Char :=
  extract text n.strt (n.fin - n.strt)

/-- One character of `JSON.stringify` output for a string: quote and
backslash are escaped; control characters (which cannot occur in the
identifier keys this transpiler stringifies) are not modelled. -/
def jsonEscapeChar (c : Char) : List Char :=
  if c = '"' ∨ c = '\\' then ['\\', c] else [c]

/-- `JSON.stringify` of a string value: the quoted, escaped literal. -/
def jsonStringify (s : List Char) : List Char :=
  '"' :: s.flatMap jsonEscapeChar ++ ['"']

/-- The kind of a token node (`operatorToken.kind`); non-token nodes
never reach the inspection sites. -/
def tokKindOf (n : TsNode) : TokKind :=
  match n.kind with
  | .token t => t
  | _ => .otherTok

/-- The thirteen operator-token kinds of the `BinaryExpression` case of
`findEdits` (part_001 lines 104-116). -/
def isAssignmentOperator (t : TokKind) : Bool :=
  match t with
  | .firstAssignment | .plusEquals | .minusEquals | .asteriskEquals
  | .slashEquals | .percentEquals | .asteriskAsteriskEquals | .barEquals
  | .ampersandEquals | .greaterGreaterEquals
  | .greaterGreaterGreaterEquals | .lessLessEquals | .caretEquals => true
  | _ => false

/-- `isMemberKind` (part_001 lines 325-327). -/
def isMemberKind (n : TsNode) : Bool :=
  n.kind = SKind.propertyAccessExpression ∨ n.kind = SKind.elementAccessExpression

mutual
/-- A `SourceNode` of the `source-map` library: an ordered tree of
literal text slices and nested source nodes (the Fragment of the spec).
The anchor position affects only the emitted position map, not the
text, and is not carried. -/
inductive Chunk : Type where
  | lit (s : List Char)
  | node (children : ChunkList)
  deriving Repr

inductive ChunkList : Type where
  | nil
  | cons (head : Chunk) (tail : ChunkList)
  deriving Repr
end

def ChunkList.ofList : List Chunk → ChunkList
  | [] => .nil
  | c :: cs => .cons c (ChunkList.ofList cs)

/-- A `SourceNode` with the given children array. -/
def Chunk.nodeOf (l : List Chunk) : Chunk := .node (ChunkList.ofList l)

/-- The children array of a `SourceNode` (`sourceNode.children`). -/
def Chunk.childrenOf : Chunk → List Chunk
  | .lit _ => []
  | .node cs => go cs
where
  go : ChunkList → List Chunk
    | .nil => []
    | .cons c cs => c :: go cs

mutual
/-- `sourceNode.toString()`: concatenating all leaf text in document
order. -/
def Chunk.flatten : Chunk → List Char
  | .lit s => s
  | .node cs => ChunkList.flattenCL cs

def ChunkList.flattenCL : ChunkList → List Char
  | .nil => []
  | .cons c cs => c.flatten ++ ChunkList.flattenCL cs
end

/-- Flattening of a plain list of chunks. -/
def flattenL : List Chunk → List Char
  | [] => []
  | c :: cs => c.flatten ++ flattenL cs

/-- `createUpdateAssignment` (part_001 lines 247-288), embedded with the
node's data passed piecewise: `isPostfixUpdate` is
`node.kind === ts.SyntaxKind.PostfixUnaryExpression`, `opKind` is
`node.operator`, `pos`/`strt` are the update expression's
`getFullStart()`/`getStart()`, `operand` is `node.operand`, and `sn` is
the default-built SourceNode of the node (mutated in place in the
program, rebuilt here). -/
def createUpdateAssignment (text : List Char) (isPostfixUpdate : Bool)
    (opKind : TokKind) (pos strt : Nat) (operand : TsNode) (sn : Chunk) : Chunk :=
  if !isMemberKind operand then
    -- sourceNode.prepend(assignIdentifier + '('); sourceNode.add(')')
    Chunk.nodeOf (Chunk.lit (str "assign(") :: sn.childrenOf ++ [Chunk.lit (str ")")])
  else
    let operator : String := if opKind = TokKind.plusPlus then "+" else "-"
    let value : List Char := operand.getText text ++ str (" " ++ operator ++ " 1")
    let header : List Char :=
      match operand.kind with
      | .propertyAccessExpression =>
          str "assign(" ++ (operand.children.childAt 0).getText text ++ str ", " ++
            jsonStringify ((operand.children.childAt 1).getText text) ++ str ", "
      | .elementAccessExpression =>
          str "assign(" ++ (operand.children.childAt 0).getText text ++ str ", " ++
            (operand.children.childAt 1).getText text ++ str ", "
      | _ => []
    let pieces : List Chunk :=
      [Chunk.lit (extract text pos (strt - pos)), Chunk.lit header,
        Chunk.lit (value ++ str ")")]
    if isPostfixUpdate then
      Chunk.nodeOf (Chunk.lit (str "(") :: pieces ++
        [Chunk.lit (str (if opKind = TokKind.plusPlus then " - 1)" else " + 1)"))])
    else
      Chunk.nodeOf pieces

/-- `createDeleteAssignment` (part_001 lines 290-323): `parentPos` and
`parentStrt` are the `DeleteExpression` parent's
`getFullStart()`/`getStart()`, `node` is the member expression, `sn` the
delete expression's default-built SourceNode (used only in the
unreachable non-member branch, which the dispatch guards). -/
def createDeleteAssignment (text : List Char) (parentPos parentStrt : Nat)
    (node : TsNode) (sn : Chunk) : Chunk :=
  if !isMemberKind node then
    Chunk.nodeOf (Chunk.lit (str "assign(") :: sn.childrenOf ++ [Chunk.lit (str ")")])
  else
    let body : List Char :=
      match node.kind with
      | .propertyAccessExpression =>
          str "assign(" ++ (node.children.childAt 0).getText text ++ str ", " ++
            jsonStringify ((node.children.childAt 1).getText text) ++ str ")"
      | .elementAccessExpression =>
          str "assign(" ++ (node.children.childAt 0).getText text ++ str ", " ++
            (node.children.childAt 1).getText text ++ str ")"
      | _ => []
    Chunk.nodeOf [Chunk.lit (extract text parentPos (parentStrt - parentPos)),
      Chunk.lit body]

/-- `createAssignment` (part_001 lines 203-245) with the recursive
re-build of the right-hand side (`createSourceNode(node.right)`)
computed by the caller and passed as `value`; `pos`/`strt` are the
assignment's `getFullStart()`/`getStart()`, `sn` its default-built
SourceNode. -/
def createAssignment (text : List Char) (pos strt : Nat)
    (left opTok : TsNode) (value : Chunk) (sn : Chunk) : Chunk :=
  if !isMemberKind left then
    Chunk.nodeOf (Chunk.lit (str "assign(") :: sn.childrenOf ++ [Chunk.lit (str ")")])
  else
    let header : List Char :=
      match left.kind with
      | .propertyAccessExpression =>
          str "assign(" ++ (left.children.childAt 0).getText text ++ str ", " ++
            jsonStringify ((left.children.childAt 1).getText text) ++ str ", "
      | .elementAccessExpression =>
          str "assign(" ++ (left.children.childAt 0).getText text ++ str ", " ++
            (left.children.childAt 1).getText text ++ str ", "
      | _ => []
    let opPart : List Chunk :=
      if tokKindOf opTok = TokKind.firstAssignment then []
      else
        -- sourceNode.add([left.getText(), node.operatorToken.getText()[0]])
        [Chunk.lit (left.getText text), Chunk.lit ((opTok.getText text).take 1)]
    Chunk.nodeOf ([Chunk.lit (extract text pos (strt - pos)), Chunk.lit header] ++
      opPart ++ [value, Chunk.lit (str ")")])

mutual
/-- `createSourceNode` (part_001 lines 178-201): builds the Fragment of
a node by walking `forEachChild` in document order, emitting the text
strictly between consecutive children as opaque literal slices and
handing each child to `findEdits`. -/
def createSourceNode (text : List Char) : TsNode → Chunk
  | .mk _ pos _ fin cs => Chunk.nodeOf (createSourceNodeLoop text pos fin cs)

/-- The `ts.forEachChild` loop of `createSourceNode`, with the running
`start` cursor and the node's end position. -/
def createSourceNodeLoop (text : List Char) (start fin : Nat) :
    TsNodeList → List Chunk
  | .nil => [Chunk.lit (extract text start (fin - start))]
  | .cons c cs =>
      Chunk.lit (extract text start (c.pos - start)) ::
        findEditsDispatch text c (createSourceNode text c) ::
        createSourceNodeLoop text c.fin fin cs

/-- The rule dispatch of `findEdits` (part_001 lines 96-176) on one
node, given that node's default-built SourceNode `sn` (the program
mutates `sn` in place; the result here is the mutated node).  The
`ClassDeclaration`/`StringLiteral` arms (checker-dependent metadata and
view rules) append to or replace `sn` via `extendsClass` and the
`create*`/`appendProperty` helpers embedded separately below; they are
outside this expression-level node universe, whose `other` kind covers
exactly the kinds on which this dispatch leaves `sn` unchanged. -/
def findEditsDispatch (text : List Char) (node : TsNode) (sn : Chunk) : Chunk :=
  match node with
  | .mk .binaryExpression pos strt _ (.cons left (.cons opTok (.cons right .nil))) =>
      if isAssignmentOperator (tokKindOf opTok) then
        createAssignment text pos strt left opTok
          (createSourceNode text right) sn
      else sn
  | .mk (.prefixUnaryExpression op) pos strt _ (.cons operand .nil) =>
      if op = TokKind.plusPlus ∨ op = TokKind.minusMinus then
        createUpdateAssignment text false op pos strt operand sn
      else sn
  | .mk (.postfixUnaryExpression op) pos strt _ (.cons operand .nil) =>
      if op = TokKind.plusPlus ∨ op = TokKind.minusMinus then
        createUpdateAssignment text true op pos strt operand sn
      else sn
  | .mk .deleteExpression pos strt _ (.cons expr .nil) =>
      if isMemberKind expr then
        createDeleteAssignment text pos strt expr sn
      else sn
  | _ => sn
end

/-- `findEdits` (part_001 lines 96-176): build the node's default
SourceNode, then dispatch the rewrite rules on it.  (In the program the
freshly built SourceNode is also added to the parent; the parent's loop
here uses the dispatched result directly, which is the same tree since
the dispatch mutates that very SourceNode before flattening.) -/
def findEdits (text : List Char) (node : TsNode) : Chunk :=
  findEditsDispatch text node (createSourceNode text node)

mutual
/-- Well-formedness of the front end's position bookkeeping, which the
TypeScript parser guarantees: `getFullStart() ≤ getStart() ≤ getEnd()`,
and the `forEachChild` children partition the node's span in document
order without overlap. -/
def nodeWF : TsNode → Bool
  | .mk _ pos strt fin cs =>
      decide (pos ≤ strt) && decide (strt ≤ fin) && childrenWF pos cs fin

/-- The children lie, in order, inside `[start, stop]`. -/
def childrenWF : Nat → TsNodeList → Nat → Bool
  | start, .nil, stop => decide (start ≤ stop)
  | start, .cons c cs, stop =>
      decide (start ≤ c.pos) && nodeWF c && childrenWF c.fin cs stop
end

/-- Whether the dispatch of `findEdits` takes any action on this node
(one of the expression rewrite rules fires), i.e. `findEditsDispatch`
does not return its SourceNode unchanged. -/
def ruleFires (n : TsNode) : Bool :=
  match n with
  | .mk .binaryExpression _ _ _ (.cons _ (.cons opTok (.cons _ .nil))) =>
      isAssignmentOperator (tokKindOf opTok)
  | .mk (.prefixUnaryExpression op) _ _ _ (.cons _ .nil) =>
      op = TokKind.plusPlus || op = TokKind.minusMinus
  | .mk (.postfixUnaryExpression op) _ _ _ (.cons _ .nil) =>
      op = TokKind.plusPlus || op = TokKind.minusMinus
  | .mk .deleteExpression _ _ _ (.cons expr .nil) => isMemberKind expr
  | _ => false

mutual
/-- No rewrite rule fires anywhere in the tree. -/
def ruleFree : TsNode → Bool
  | .mk k pos strt fin cs =>
      !ruleFires (.mk k pos strt fin cs) && ruleFreeList cs

def ruleFreeList : TsNodeList → Bool
  | .nil => true
  | .cons c cs => ruleFree c && ruleFreeList cs
end

/-!
## The Lineage Resolver (`extendsClass`, part_001 lines 440-467)

The resolver consults the semantic model: for a class declaration it
reads `heritageClauses`, and for the first clause whose token is the
`extends` keyword it resolves
`checker.getTypeAtLocation(clause.types[0].expression).symbol` and that
symbol's `valueDeclaration`.  The embedding records exactly the data the
resolver consumes: each clause carries its token (`isExtendsToken`), the
resolved symbol's `name`, and the symbol's `valueDeclaration` as the
declaring file name plus, when `declaration.kind` is a class
declaration, that class's own node (`classDecl`), which makes the
acyclicity the front end guarantees structural. -/

mutual
/-- A class declaration as seen by `extendsClass`. -/
inductive ClassNode : Type where
  | mk (heritageClauses : Option HClauseList)

inductive HClauseList : Type where
  | nil
  | cons (clause : HClause) (tail : HClauseList)

/-- One heritage clause together with the checker's resolution of its
first type expression. -/
inductive HClause : Type where
  | mk (isExtendsToken : Bool) (symbolName : String)
      (valueDeclaration : Option DeclInfo)

/-- `symbol.valueDeclaration`: its source file's `fileName`, and the
declaration itself when `declaration.kind === ts.SyntaxKind.ClassDeclaration`. -/
inductive DeclInfo : Type where
  | mk (fileName : String) (classDecl : Option ClassNode)
end

def HClause.isExtendsToken : HClause → Bool
  | .mk b _ _ => b

def HClause.symbolName : HClause → String
  | .mk _ s _ => s

def HClause.valueDeclaration : HClause → Option DeclInfo
  | .mk _ _ d => d

/-- `new RegExp('/node_modules/mahalo/' + from + '.ts$').test(fileName)`:
the declaring file ends with `/node_modules/mahalo/<from>.ts`.  (The
unescaped `.` of the regex would also match any single character; no
claim turns on that corner, and the literal dot is used here.) -/
def sentinelFileMatch (fromPath fileName : String) : Bool :=
  List.isSuffixOf (str ("/node_modules/mahalo/" ++ fromPath ++ ".ts")) (str fileName)

mutual
/-- `extendsClass(node, name, from)` (part_001 lines 440-467): `false`
when the class has no `heritageClauses` (the program returns
`undefined`, used only as a boolean); otherwise the clause loop. -/
def extendsClass : ClassNode → String → String → Bool
  | .mk none, _, _ => false
  | .mk (some clauses), name, fromPath => extendsLoop clauses name fromPath

/-- The `for (let clause of node.heritageClauses)` loop: non-`extends`
clauses are skipped (`continue`); the first `extends` clause is
processed and the loop then `break`s, so a fall-through returns
`undefined`, i.e. `false`. -/
def extendsLoop : HClauseList → String → String → Bool
  | .nil, _, _ => false
  | .cons (.mk isExt symName vdecl) rest, name, fromPath =>
      if isExt = false then extendsLoop rest name fromPath
      else
        if symName = name then
          match vdecl with
          | some (.mk file asClass) =>
              if sentinelFileMatch fromPath file then true
              else
                match asClass with
                | some c => extendsClass c name fromPath
                | none => false
          | none => false
        else false
end

/-- The first heritage clause whose token is the `extends` keyword (the
only clause the loop of `extendsClass` ever processes). -/
def firstExtendsClause : HClauseList → Option HClause
  | .nil => none
  | .cons cl rest =>
      if cl.isExtendsToken then some cl else firstExtendsClause rest

/-- The chains along which `extendsClass` answers `true`: at every hop
the first `extends` clause resolves to a symbol whose name is exactly
`name` and which has a value declaration; intermediate hops have a
non-matching declaring file but a class declaration to recurse into,
and the last hop's declaring file matches the sentinel pattern. -/
inductive SentinelChain (name fromPath : String) : ClassNode → Prop where
  | found (cs : HClauseList) (file : String) (asClass : Option ClassNode)
      (h1 : firstExtendsClause cs = some (.mk true name (some (.mk file asClass))))
      (h2 : sentinelFileMatch fromPath file = true) :
      SentinelChain name fromPath (.mk (some cs))
  | step (cs : HClauseList) (file : String) (c : ClassNode)
      (h1 : firstExtendsClause cs = some (.mk true name (some (.mk file (some c)))))
      (h2 : sentinelFileMatch fromPath file = false)
      (h3 : SentinelChain name fromPath c) :
      SentinelChain name fromPath (.mk (some cs))

mutual
/-- Modelled from the spec's words, for comparison with `extendsClass`
(claim C6): "Succeeds if the symbol's simple name equals sentinelName
AND its declaring file matches sentinelModulePath ...  If the match
fails but the symbol's declaration is itself a class declaration,
recurse on that declaration."  Under this reading the recursion happens
whenever the combined match fails and the declaration is a class, with
no requirement that intermediate symbols bear the sentinel name. -/
def reachesSentinelSpec : ClassNode → String → String → Bool
  | .mk none, _, _ => false
  | .mk (some clauses), name, fromPath => reachesSpecLoop clauses name fromPath

def reachesSpecLoop : HClauseList → String → String → Bool
  | .nil, _, _ => false
  | .cons (.mk isExt symName vdecl) rest, name, fromPath =>
      if isExt = false then reachesSpecLoop rest name fromPath
      else
        match vdecl with
        | some (.mk file asClass) =>
            if symName = name && sentinelFileMatch fromPath file then true
            else
              match asClass with
              | some c => reachesSentinelSpec c name fromPath
              | none => false
        | none => false
end

/-!
## Metadata synthesis (`appendProperty`/`createInject`, part_001
lines 344-400) and the semantics of the synthesized statement -/

/-- `appendProperty` (part_001 lines 398-400): the single statement
appended after the class body for a non-empty table. -/
def appendProperty (property value : String) : String :=
  property ++ " = " ++ property ++ " ? Object.assign(" ++ property ++ ", " ++
    value ++ ") : " ++ value ++ ";"

/-- `createInject` (part_001 lines 344-360), with the member scan
(`ts.forEachChild` + `storeInjection`) abstracted into its result: the
list of `(member name, type-annotation text)` pairs collected in
declaration order.  Nothing is emitted for an empty table; otherwise the
table literal is `'{' + inject.map(i => i.join(':')).join(',') + '}'`
and the statement comes from `appendProperty` on
`node.name.getText() + '.inject'`. -/
def createInject (className : String) (inject : List (String × String)) :
    Option String :=
  if inject.length = 0 then none
  else
    some (appendProperty (className ++ ".inject")
      ("\x7b" ++ String.intercalate ","
        (inject.map fun injection => injection.1 ++ ":" ++ injection.2) ++ "\x7d"))

/-- A metadata table as a finite map from keys to entry texts. -/
def Table : Type := String → Option String

/-- Modelled from the spec: the effect of JavaScript
`Object.assign(target, source)` on the target table — every own key of
the source overwrites the target's entry, keys absent from the source
keep the target's entry.  (The statement synthesized by
`appendProperty` is executed by the runtime, outside this repository;
§4.3 of the spec specifies the shallow merge modelled here.) -/
def objectAssignSem (target source : Table) : Table :=
  fun k =>
    match source k with
    | some v => some v
    | none => target k

/-- Modelled from the spec: evaluating the synthesized statement
`P = P ? Object.assign(P, V) : V;` against the table `V` when the
static property `P` currently holds `prior` (`none` = `undefined`,
which is falsy, so the property is initialized directly to `V`). -/
def appendPropertySem (prior : Option Table) (v : Table) : Table :=
  match prior with
  | some p => objectAssignSem p v
  | none => v

/-!
## Semantics of the rewritten postfix update (claim C4)

The rewritten text `(hook(object, key, operand OP 1) INVERSE_OP 1)` is
evaluated by the runtime.  Following the claim's stated assumption that
the hook performs the assignment and returns the assigned value, the
evaluation is modelled on the single member slot being updated. -/

/-- Modelled from the claim's assumption: `hook(object, key, v)` stores
`v` in the member slot and returns it — the pair is
`(returned value, new stored value)`. -/
def hookAssign (v : Int) : Int × Int := (v, v)

/-- Evaluating the rewritten postfix expression
`(hook(object, key, operand OP 1) INVERSE_OP 1)` when the member slot
holds `store`: the operand read yields `store`, the hook stores and
returns `store OP 1`, and the surrounding `INVERSE_OP 1` is applied to
the hook's return value.  The pair is
`(value of the whole expression, stored value afterwards)`. -/
def postfixRewriteEval (isPlus : Bool) (store : Int) : Int × Int :=
  let operand := store
  let hooked := hookAssign (if isPlus then operand + 1 else operand - 1)
  ((if isPlus then hooked.1 - 1 else hooked.1 + 1), hooked.2)

/-!
## The Position Map Composer (`mergeSourceMaps`, src/index.ts
lines 467-505) and the pipeline guard (claim C10) -/

/-- One mapping of a raw source map, as `eachMapping` yields it:
generated position, original position, and the optional source file and
symbol name. -/
structure SMMapping : Type where
  generatedLine : Nat
  generatedColumn : Nat
  originalLine : Nat
  originalColumn : Nat
  source : Option String
  name : Option String
  deriving DecidableEq, Repr

/-- A raw source map: its mappings in `eachMapping` order and its
`sources` array. -/
structure RawSourceMap : Type where
  mappings : List SMMapping
  sources : List String
  deriving DecidableEq, Repr

/-- An original position as `originalPositionFor` reports it when a
mapping covers the query. -/
structure OrigPos : Type where
  line : Nat
  column : Nat
  source : String
  deriving DecidableEq, Repr

/-- Modelled from the spec: the external `source-map` library's
`SourceMapConsumer.originalPositionFor` — among the map's mappings on
the queried generated line at or left of the queried column, the
rightmost one covers the query; when none covers it (the position lies
in text with no original counterpart) every field comes back `null`,
modelled as `none`. -/
def originalPositionFor (m : RawSourceMap) (line column : Nat) : Option OrigPos :=
  let covering :=
    m.mappings.filter fun mp =>
      mp.generatedLine = line && decide (mp.generatedColumn ≤ column)
  let best :=
    covering.foldl
      (fun acc mp =>
        match acc with
        | none => some mp
        | some b => if b.generatedColumn ≤ mp.generatedColumn then some mp else some b)
      none
  match best with
  | none => none
  | some mp =>
      match mp.source with
      | some s => some ⟨mp.originalLine, mp.originalColumn, s⟩
      | none => none

/-- The composition of one lowering-pass mapping through the first-stage
map (the body of the `eachMapping` callback in `mergeSourceMaps`,
src/index.ts lines 476-498): resolve the mapping's original side
through the first-stage map; drop the pair when nothing covers it,
otherwise emit the composed pair carrying the lowering map's generated
position, source and name, and the first map's original position. -/
def composeMapping (mahaloMap : RawSourceMap) (mapping : SMMapping) :
    Option SMMapping :=
  match originalPositionFor mahaloMap mapping.originalLine mapping.originalColumn with
  | none => none
  | some o =>
      some { generatedLine := mapping.generatedLine
             generatedColumn := mapping.generatedColumn
             originalLine := o.line
             originalColumn := o.column
             source := mapping.source
             name := mapping.name }

/-- `mergeSourceMaps` (src/index.ts lines 467-505): when no rewriting
occurred (`mahaloMap` absent) the lowering pass's map is returned
verbatim; otherwise each of its mappings is composed through the
first-stage map (dropping pairs with no original counterpart) and the
merged map's `sources` are overwritten with the first-stage map's
`sources`. -/
def mergeSourceMaps (mahaloMap : Option RawSourceMap)
    (typescriptMap : RawSourceMap) : RawSourceMap :=
  match mahaloMap with
  | none => typescriptMap
  | some mm =>
      { mappings := typescriptMap.mappings.filterMap (composeMapping mm)
        sources := mm.sources }

/-- `needle` occurs as a contiguous substring of `hay`. -/
def isPrefixChars : List Char → List Char → Bool
  | [], _ => true
  | _ :: _, [] => false
  | a :: as, b :: bs => a = b && isPrefixChars as bs

def containsChars (needle : List Char) : List Char → Bool
  | [] => isPrefixChars needle []
  | b :: bs => isPrefixChars needle (b :: bs) || containsChars needle bs

/-- The pipeline guard `/\/node_modules\/(mahalo|core-js)\//.test(fileName)`
(part_001 line 51, src/index.ts line 50): the resolved file path
contains `/node_modules/mahalo/` or `/node_modules/core-js/`. -/
def isExcludedPath (fileName : String) : Bool :=
  containsChars (str "/node_modules/mahalo/") (str fileName) ||
    containsChars (str "/node_modules/core-js/") (str fileName)

/-- The value `mahaloTranspiler` returns. -/
structure TranspileResult : Type where
  fileName : String
  text : String
  map : RawSourceMap
  deriving DecidableEq, Repr

/-- The control flow of `mahaloTranspiler` (src/index.ts lines 29-80,
part_001 lines 28-78) around the exclusion guard.  The two external
collaborators are parameters: `transpile` is the lowering pass
(`ts.transpileModule`, returning the lowered text with the
`sourceMappingURL` comment already stripped, and its map), and
`rewriteStage` is the whole guarded rewrite block (lines 51-66:
identifier collection, hook-name allocation, the `createSourceNode`
walk, the hook-import prepend, and the first-stage map), returning the
rewritten text and that map.  The guard decides whether `rewriteStage`
runs at all and whether a first-stage map exists for
`mergeSourceMaps`. -/
def mahaloTranspilerModel (transpile : String → String × RawSourceMap)
    (rewriteStage : String → String × RawSourceMap)
    (fileName sourceText : String) : TranspileResult :=
  let staged :=
    if isExcludedPath fileName = false then
      let r := rewriteStage sourceText
      (r.1, some r.2)
    else
      (sourceText, none)
  let result := transpile staged.1
  { fileName := fileName
    text := result.1
    map := mergeSourceMaps staged.2 result.2 }

mutual
/-- Number of nodes in a tree (induction measure for the walker proofs). -/
def TsNode.size : TsNode → Nat
  | .mk _ _ _ _ cs => 1 + cs.sizeL

def TsNodeList.sizeL : TsNodeList → Nat
  | .nil => 0
  | .cons c cs => 1 + c.size + cs.sizeL
end

/-- The `key` argument the rewrite rules pass to the hook for a member
access: the quoted property name for dot access
(`JSON.stringify(node.name.getText())`), the index expression's text
verbatim for bracket access (`node.argumentExpression.getText()`). -/
def memberKeyText (text : List Char) (m : TsNode) : List Char :=
  match m.kind with
  | .propertyAccessExpression => jsonStringify ((m.children.childAt 1).getText text)
  | _ => (m.children.childAt 1).getText text

mutual
/-- Chain depth measure for the lineage proofs. -/
def ClassNode.sizeC : ClassNode → Nat
  | .mk none => 1
  | .mk (some cs) => 1 + cs.sizeHL

def HClauseList.sizeHL : HClauseList → Nat
  | .nil => 0
  | .cons cl rest => 1 + cl.sizeHC + rest.sizeHL

def HClause.sizeHC : HClause → Nat
  | .mk _ _ none => 1
  | .mk _ _ (some d) => 1 + d.sizeD

def DeclInfo.sizeD : DeclInfo → Nat
  | .mk _ none => 1
  | .mk _ (some c) => 1 + c.sizeC
end

/-!
## Concrete inputs used by the closed theorems and witnesses

Each tree is the syntax tree the front end produces for the quoted
source text, with the parser's position bookkeeping (`pos` = full start
including leading trivia, `strt` = start, `fin` = end). -/

/-- Source text `a + b` (no rewrite rule fires anywhere). -/
def c1DemoText : List Char := str "a + b"

/-- Tree of `a + b`: a binary expression with a non-assignment operator
token. -/
def c1DemoNode : TsNode :=
  .mk .binaryExpression 0 0 5
    (.cons (.mk .other 0 0 1 .nil)
      (.cons (.mk (.token .otherTok) 1 2 3 .nil)
        (.cons (.mk .other 3 4 5 .nil) .nil)))

/-- Source text `a.b **= c`. -/
def c2Text : List Char := str "a.b **= c"

/-- `a.b` of `a.b **= c`. -/
def c2Left : TsNode :=
  .mk .propertyAccessExpression 0 0 3
    (.cons (.mk .other 0 0 1 .nil) (.cons (.mk .other 2 2 3 .nil) .nil))

/-- Tree of `a.b **= c`. -/
def c2Node : TsNode :=
  .mk .binaryExpression 0 0 9
    (.cons c2Left
      (.cons (.mk (.token .asteriskAsteriskEquals) 3 4 7 .nil)
        (.cons (.mk .other 7 8 9 .nil) .nil)))

/-- Source text `a.b = c.d = e`. -/
def c3Text : List Char := str "a.b = c.d = e"

/-- `c.d` of `a.b = c.d = e`. -/
def c3InnerLeft : TsNode :=
  .mk .propertyAccessExpression 5 6 9
    (.cons (.mk .other 5 6 7 .nil) (.cons (.mk .other 8 8 9 .nil) .nil))

/-- The right-hand side `c.d = e`, itself an assignment. -/
def c3Inner : TsNode :=
  .mk .binaryExpression 5 6 13
    (.cons c3InnerLeft
      (.cons (.mk (.token .firstAssignment) 9 10 11 .nil)
        (.cons (.mk .other 11 12 13 .nil) .nil)))

/-- Tree of `a.b = c.d = e`. -/
def c3Node : TsNode :=
  .mk .binaryExpression 0 0 13
    (.cons (.mk .propertyAccessExpression 0 0 3
        (.cons (.mk .other 0 0 1 .nil) (.cons (.mk .other 2 2 3 .nil) .nil)))
      (.cons (.mk (.token .firstAssignment) 3 4 5 .nil)
        (.cons c3Inner .nil)))

/-- Source text `a.b++`. -/
def c4Text : List Char := str "a.b++"

/-- `a.b` of `a.b++`. -/
def c4Operand : TsNode :=
  .mk .propertyAccessExpression 0 0 3
    (.cons (.mk .other 0 0 1 .nil) (.cons (.mk .other 2 2 3 .nil) .nil))

/-- Tree of `a.b++`. -/
def c4Node : TsNode :=
  .mk (.postfixUnaryExpression .plusPlus) 0 0 5 (.cons c4Operand .nil)

/-- Source text `delete a.b`. -/
def c5Text : List Char := str "delete a.b"

/-- `a.b` of `delete a.b`. -/
def c5Member : TsNode :=
  .mk .propertyAccessExpression 6 7 10
    (.cons (.mk .other 6 7 8 .nil) (.cons (.mk .other 9 9 10 .nil) .nil))

/-- Tree of `delete a.b`. -/
def c5Node : TsNode := .mk .deleteExpression 0 0 10 (.cons c5Member .nil)

/-- Source text `delete a["x"]`. -/
def c5eText : List Char := str "delete a[\"x\"]"

/-- `a["x"]` of `delete a["x"]` (the argument expression is the string
literal `"x"`). -/
def c5eMember : TsNode :=
  .mk .elementAccessExpression 6 7 13
    (.cons (.mk .other 6 7 8 .nil) (.cons (.mk .other 9 9 12 .nil) .nil))

/-- Tree of `delete a["x"]`. -/
def c5eNode : TsNode := .mk .deleteExpression 0 0 13 (.cons c5eMember .nil)

/-- Source text `delete x` (the deletion target is a plain identifier,
not a member access). -/
def c9Text : List Char := str "delete x"

/-- Tree of `delete x`. -/
def c9Node : TsNode := .mk .deleteExpression 0 0 8 (.cons (.mk .other 6 7 8 .nil) .nil)

/-- Source text `x = y` (assignment whose left side is not a member
access). -/
def c9aText : List Char := str "x = y"

/-- Tree of `x = y`. -/
def c9aNode : TsNode :=
  .mk .binaryExpression 0 0 5
    (.cons (.mk .other 0 0 1 .nil)
      (.cons (.mk (.token .firstAssignment) 1 2 3 .nil)
        (.cons (.mk .other 3 4 5 .nil) .nil)))

/-- Source text `x++` (update whose operand is not a member access). -/
def c9uText : List Char := str "x++"

/-- Tree of `x++`. -/
def c9uNode : TsNode :=
  .mk (.postfixUnaryExpression .plusPlus) 0 0 3 (.cons (.mk .other 0 0 1 .nil) .nil)

/-- The canonical resolved path of the framework's component module. -/
def c6MahaloFile : String := "/app/node_modules/mahalo/core/component.ts"

/-- A class whose first extends clause resolves to the symbol `default`
declared in the framework's component module (e.g.
`export default class extends Component`-style resolution). -/
def c6Inner : ClassNode :=
  .mk (some (.cons (.mk true "default" (some (.mk c6MahaloFile none))) .nil))

/-- A class `C extends B` where `B` is an ordinary named class in a user
file whose own chain reaches the sentinel: the heritage symbol's name is
`B`, not the sentinel name. -/
def c6Outer : ClassNode :=
  .mk (some (.cons (.mk true "B" (some (.mk "/app/src/b.ts" (some c6Inner)))) .nil))

/-- A pre-existing metadata table `{old: "1"}`. -/
def demoPrior : Table := fun k => if k = "old" then some "1" else none

/-- A newly extracted metadata table `{new: "2"}`. -/
def demoNew : Table := fun k => if k = "new" then some "2" else none

/-- First-stage demo map: one mapping anchoring generated `(1,0)` to
original `(1,0)` of `a.ts`. -/
def mmDemo : RawSourceMap :=
  { mappings := [⟨1, 0, 1, 0, some "a.ts", none⟩], sources := ["a.ts"] }

/-- A lowering-pass mapping whose original side `(1,2)` lies in copied
text covered by `mmDemo`. -/
def tsDemoKept : SMMapping := ⟨1, 0, 1, 2, some "int.ts", none⟩

/-- A lowering-pass mapping whose original side `(5,0)` lies in
synthesized text: no mapping of `mmDemo` covers line 5. -/
def tsDemoDropped : SMMapping := ⟨2, 0, 5, 0, some "int.ts", none⟩

/-- Lowering-pass demo map. -/
def tsDemo : RawSourceMap :=
  { mappings := [tsDemoKept, tsDemoDropped], sources := ["int.ts"] }

/-- Length of a child list (plain list length, for inductions). -/
def TsNodeList.len : TsNodeList → Nat
  | .nil => 0
  | .cons _ t => 1 + t.len

/-- Length of a heritage-clause list. -/
def HClauseList.len : HClauseList → Nat
  | .nil => 0
  | .cons _ t => 1 + t.len

/-!
## Helper lemmas -/

/-- Adjacent substring slices concatenate: `text[a,b) ++ text[b,c) = text[a,c)`. -/
theorem extract_chain (text : List Char) {a b c : Nat} (hab : a ≤ b) (hbc : b ≤ c) :
    extract text a (b - a) ++ extract text b (c - b) = extract text a (c - a) := by
  unfold extract
  have h1 : text.drop b = (text.drop a).drop (b - a) := by
    rw [List.drop_drop]
    congr 1
    omega
  rw [h1, ← List.take_add]
  congr 1
  omega

theorem flattenCL_ofList (l : List Chunk) :
    ChunkList.flattenCL (ChunkList.ofList l) = flattenL l := by
  induction l with
  | nil => rfl
  | cons c cs ih => simp [ChunkList.ofList, ChunkList.flattenCL, flattenL, ih]

theorem flatten_nodeOf (l : List Chunk) : (Chunk.nodeOf l).flatten = flattenL l := by
  simp [Chunk.nodeOf, Chunk.flatten, flattenCL_ofList]

theorem childrenOf_nodeOf (l : List Chunk) : (Chunk.nodeOf l).childrenOf = l := by
  simp only [Chunk.nodeOf, Chunk.childrenOf]
  induction l with
  | nil => rfl
  | cons c cs ih => simp [ChunkList.ofList, Chunk.childrenOf.go, ih]

theorem flatten_lit (s : List Char) : (Chunk.lit s).flatten = s := rfl

theorem flattenL_append (l₁ l₂ : List Chunk) :
    flattenL (l₁ ++ l₂) = flattenL l₁ ++ flattenL l₂ := by
  induction l₁ with
  | nil => rfl
  | cons c cs ih => simp [flattenL, ih]

theorem childrenWF_le_aux :
    ∀ (k : Nat) (cs : TsNodeList) (start stop : Nat), cs.len ≤ k →
      childrenWF start cs stop = true → start ≤ stop := by
  intro k
  induction k with
  | zero =>
      intro cs start stop hl h
      cases cs with
      | nil => simpa [childrenWF] using h
      | cons c cs' => simp [TsNodeList.len] at hl
  | succ k ih =>
      intro cs start stop hl h
      cases cs with
      | nil => simpa [childrenWF] using h
      | cons c cs' =>
          simp only [childrenWF, Bool.and_eq_true, decide_eq_true_eq] at h
          obtain ⟨⟨h1, h2⟩, h3⟩ := h
          have h4 := ih cs' c.fin stop (by simp [TsNodeList.len] at hl; omega) h3
          cases c with
          | mk kk p s f cs2 =>
              simp only [nodeWF, Bool.and_eq_true, decide_eq_true_eq] at h2
              simp only [TsNode.pos, TsNode.fin] at h1 h4
              omega

/-- A well-formed child list starts no later than it stops. -/
theorem childrenWF_le {start stop : Nat} {cs : TsNodeList}
    (h : childrenWF start cs stop = true) : start ≤ stop :=
  childrenWF_le_aux cs.len cs start stop (Nat.le_refl _) h

/-- When no rule fires on a node, the dispatch leaves its SourceNode
unchanged. -/
theorem dispatch_no_rule {text : List Char} {n : TsNode} {sn : Chunk}
    (h : ruleFires n = false) : findEditsDispatch text n sn = sn := by
  unfold findEditsDispatch
  split
  · rename_i pos strt fin left opTok right
    simp only [ruleFires] at h
    simp [h]
  · rename_i op pos strt fin operand
    simp only [ruleFires] at h
    simp only [Bool.or_eq_false_iff, decide_eq_false_iff_not] at h
    rw [if_neg]
    tauto
  · rename_i op pos strt fin operand
    simp only [ruleFires] at h
    simp only [Bool.or_eq_false_iff, decide_eq_false_iff_not] at h
    rw [if_neg]
    tauto
  · rename_i pos strt fin expr
    simp only [ruleFires] at h
    simp [h]
  · rfl

/-- The Fragment Composer's child loop is the identity on the covered
text span when no rule fires in the children. -/
theorem loop_extract (text : List Char) :
    ∀ (k : Nat) (cs : TsNodeList) (start stop : Nat), cs.sizeL ≤ k →
      childrenWF start cs stop = true → ruleFreeList cs = true →
      flattenL (createSourceNodeLoop text start stop cs) =
        extract text start (stop - start) := by
  intro k
  induction k with
  | zero =>
      intro cs start stop hsz hwf hrf
      cases cs with
      | nil => simp [createSourceNodeLoop, flattenL, flatten_lit]
      | cons c cs' =>
          exfalso
          cases c with
          | mk kk p s f cs2 => simp [TsNodeList.sizeL, TsNode.size] at hsz
  | succ k ih =>
      intro cs start stop hsz hwf hrf
      cases cs with
      | nil => simp [createSourceNodeLoop, flattenL, flatten_lit]
      | cons c cs' =>
          simp only [childrenWF, Bool.and_eq_true, decide_eq_true_eq] at hwf
          obtain ⟨⟨h1, h2⟩, h3⟩ := hwf
          simp only [ruleFreeList, Bool.and_eq_true] at hrf
          obtain ⟨hrc, hrl⟩ := hrf
          cases c with
          | mk kk p s f cs2 =>
              simp only [nodeWF, Bool.and_eq_true, decide_eq_true_eq] at h2
              obtain ⟨⟨hps, hsf⟩, hcw⟩ := h2
              simp only [ruleFree, Bool.and_eq_true] at hrc
              obtain ⟨hnof, hrl2⟩ := hrc
              simp only [TsNode.pos, TsNode.fin] at h1 h3 ⊢
              have hsub : cs2.sizeL ≤ k := by
                simp [TsNodeList.sizeL, TsNode.size] at hsz
                omega
              have hsub2 : cs'.sizeL ≤ k := by
                simp [TsNodeList.sizeL, TsNode.size] at hsz
                omega
              have hnode : flattenL (createSourceNodeLoop text p f cs2) =
                  extract text p (f - p) := ih cs2 p f hsub hcw hrl2
              have hfin : f ≤ stop := childrenWF_le h3
              have htail := ih cs' f stop hsub2 h3 hrl
              have hdisp : findEditsDispatch text (.mk kk p s f cs2)
                  (createSourceNode text (.mk kk p s f cs2)) =
                  createSourceNode text (.mk kk p s f cs2) :=
                dispatch_no_rule (by simpa using hnof)
              have hflat : (createSourceNode text (.mk kk p s f cs2)).flatten =
                  extract text p (f - p) := by
                rw [createSourceNode, flatten_nodeOf, hnode]
              simp only [createSourceNodeLoop, flattenL, flatten_lit, TsNode.pos,
                TsNode.fin, hdisp, hflat, htail]
              rw [extract_chain text (show p ≤ f by omega) hfin,
                extract_chain text h1 (show p ≤ stop by omega)]

/-- C1: for every syntax tree on which no rewrite rule fires, flattening
the Fragment tree built by the Fragment Composer (`createSourceNode`)
yields the covered source text exactly; in particular, on a root node
spanning the whole unit it reproduces the original source text — the
transform is the identity when no rewrite rule matches anything. -/
theorem c1_flatten_identity (text : List Char) (n : TsNode)
    (hwf : nodeWF n = true) (hfree : ruleFree n = true) :
    (createSourceNode text n).flatten = extract text n.pos (n.fin - n.pos) ∧
    (n.pos = 0 → n.fin = text.length → (createSourceNode text n).flatten = text) := by
  cases n with
  | mk k p s f cs =>
      simp only [nodeWF, Bool.and_eq_true, decide_eq_true_eq] at hwf
      obtain ⟨⟨hps, hsf⟩, hcw⟩ := hwf
      simp only [ruleFree, Bool.and_eq_true] at hfree
      obtain ⟨_, hrl⟩ := hfree
      have h := loop_extract text cs.sizeL cs p f (Nat.le_refl _) hcw hrl
      have hmain : (createSourceNode text (TsNode.mk k p s f cs)).flatten =
          extract text p (f - p) := by
        rw [createSourceNode, flatten_nodeOf, h]
      refine ⟨by simpa [TsNode.pos, TsNode.fin] using hmain, ?_⟩
      intro h0 hn
      simp only [TsNode.pos] at h0
      simp only [TsNode.fin] at hn
      subst h0
      subst hn
      rw [hmain]
      simp [extract]

/-- Witness for C1 at the concrete tree of `a + b`: the hypotheses hold
and flattening reproduces the source text. -/
theorem c1_flatten_identity_witness :
    nodeWF c1DemoNode = true ∧ ruleFree c1DemoNode = true ∧
    (createSourceNode c1DemoText c1DemoNode).flatten = c1DemoText :=
  ⟨by decide, by decide,
    (c1_flatten_identity c1DemoText c1DemoNode (by decide) (by decide)).2
      (by decide) (by decide)⟩

/-- C2 (failing evaluation): on `a.b **= c` the rewrite emits only the
first character of the compound operator token
(`node.operatorToken.getText()[0]`), producing `assign(a, "b", a.b* c)`;
the text `**` that the claim requires (the operator with exactly its
trailing `=` stripped) appears nowhere in the output. -/
theorem c2_operator_truncated :
    Chunk.flatten (findEdits c2Text c2Node) = str "assign(a, \"b\", a.b* c)" ∧
    containsChars (str "**") (Chunk.flatten (findEdits c2Text c2Node)) = false := by
  decide

/-- C3 (failing evaluation): on `a.b = c.d = e` the rewritten value slot
is the original text of the right-hand side — the nested assignment
`c.d = e`, which is the whole right-hand side, is spliced in unrewritten
(no `assign(c, ...)` call appears), because
`createSourceNode(node.right)` dispatches rules only on proper
descendants of the right-hand side, never on the right-hand side node
itself. -/
theorem c3_whole_rhs_not_rewritten :
    Chunk.flatten (findEdits c3Text c3Node) = str "assign(a, \"b\",  c.d = e)" ∧
    containsChars (str "assign(c") (Chunk.flatten (findEdits c3Text c3Node)) = false := by
  decide

/-- C4: a postfix increment or decrement whose operand is a member
access rewrites to `(hook(object, key, operand OP 1) INVERSE_OP 1)`
(with the dot key quoted and a bracket key passed through verbatim),
and — under the claim's assumption that the hook performs the
assignment and returns the assigned value — the rewritten expression
evaluates to the pre-update value while the stored value becomes the
updated one (for a slot holding 5, postfix increment yields 5 and
stores 6). -/
theorem c4_postfix_update (text : List Char) (pos strt fin : Nat)
    (operand : TsNode) (op : TokKind)
    (hop : op = TokKind.plusPlus ∨ op = TokKind.minusMinus)
    (hm : isMemberKind operand = true) :
    (Chunk.flatten (findEdits text
        (.mk (.postfixUnaryExpression op) pos strt fin (.cons operand .nil))) =
      str "(" ++ extract text pos (strt - pos) ++
        str "assign(" ++ (operand.children.childAt 0).getText text ++ str ", " ++
        memberKeyText text operand ++ str ", " ++ operand.getText text ++
        str (if op = TokKind.plusPlus then " + 1)" else " - 1)") ++
        str (if op = TokKind.plusPlus then " - 1)" else " + 1)")) ∧
    (∀ store : Int, postfixRewriteEval true store = (store, store + 1)) ∧
    (∀ store : Int, postfixRewriteEval false store = (store, store - 1)) ∧
    postfixRewriteEval true 5 = (5, 6) := by
  refine ⟨?_, ?_, ?_, by decide⟩
  · rw [findEdits, findEditsDispatch]
    rw [if_pos hop]
    rw [createUpdateAssignment, if_neg (by simp [hm])]
    cases operand with
    | mk k p2 s2 f2 cs2 =>
        simp only [isMemberKind, TsNode.kind, decide_eq_true_eq] at hm
        rcases hop with hop | hop <;> subst hop <;>
          rcases hm with hm | hm <;> subst hm <;>
            simp [memberKeyText, TsNode.kind, flatten_nodeOf, flattenL, flatten_lit,
              str, List.append_assoc]
  · intro store
    simp [postfixRewriteEval, hookAssign]
  · intro store
    simp [postfixRewriteEval, hookAssign]

/-- C5: a deletion whose target is a member access rewrites to the
two-argument hook call `hook(object, key)` — the dot key as a quoted
string literal, a bracket key as the index expression's original text
verbatim; concretely, `delete a.b` becomes `assign(a, "b")` and
`delete a["x"]` becomes `assign(a, "x")` with the index text passed
through unchanged. -/
theorem c5_delete_two_arg (text : List Char) (pos strt fin : Nat)
    (expr : TsNode) (hm : isMemberKind expr = true) :
    (Chunk.flatten (findEdits text
        (.mk .deleteExpression pos strt fin (.cons expr .nil))) =
      extract text pos (strt - pos) ++ str "assign(" ++
        (expr.children.childAt 0).getText text ++ str ", " ++
        memberKeyText text expr ++ str ")") ∧
    Chunk.flatten (findEdits c5Text c5Node) = str "assign(a, \"b\")" ∧
    Chunk.flatten (findEdits c5eText c5eNode) = str "assign(a, \"x\")" := by
  refine ⟨?_, by decide, by decide⟩
  rw [findEdits, findEditsDispatch]
  rw [if_pos hm]
  rw [createDeleteAssignment, if_neg (by simp [hm])]
  cases expr with
  | mk k p2 s2 f2 cs2 =>
      simp only [isMemberKind, TsNode.kind, decide_eq_true_eq] at hm
      rcases hm with hm | hm <;> subst hm <;>
        simp [memberKeyText, TsNode.kind, flatten_nodeOf, flattenL, flatten_lit,
          str, List.append_assoc]

/-- Witness for C5 at `delete a.b`: the member-access hypothesis holds
and the general equation instantiates to the quoted two-argument call. -/
theorem c5_delete_two_arg_witness :
    isMemberKind c5Member = true ∧
    Chunk.flatten (findEdits c5Text c5Node) =
      extract c5Text 0 0 ++ str "assign(" ++
        (c5Member.children.childAt 0).getText c5Text ++ str ", " ++
        memberKeyText c5Text c5Member ++ str ")" :=
  ⟨by decide, (c5_delete_two_arg c5Text 0 0 10 c5Member (by decide)).1⟩

/-- Witness for C4 at `a.b++` with the slot holding 5: the rewritten
text is `(assign(a, "b", a.b + 1) - 1)`, whose evaluation yields 5 while
6 is stored. -/
theorem c4_postfix_update_witness :
    Chunk.flatten (findEdits c4Text c4Node) = str "(assign(a, \"b\", a.b + 1) - 1)" ∧
    postfixRewriteEval true 5 = (5, 6) := by
  have h := c4_postfix_update c4Text 0 0 5 c4Operand TokKind.plusPlus
    (Or.inl rfl) (by decide)
  refine ⟨?_, h.2.2.2⟩
  rw [show c4Node =
      .mk (.postfixUnaryExpression .plusPlus) 0 0 5 (.cons c4Operand .nil) from rfl,
    h.1]
  decide

/-- C9 (counterexample): the dispatcher does not fall through to the
generic wrapper for a deletion whose target is not a member access —
`delete x` is left exactly as written, not degraded to the marker call
`assign(delete x)`. -/
theorem c9_delete_not_wrapped :
    Chunk.flatten (findEdits c9Text c9Node) = c9Text ∧
    Chunk.flatten (findEdits c9Text c9Node) ≠ str "assign(" ++ c9Text ++ str ")" := by
  decide

/-- C9 (amended): for assignment and increment/decrement nodes whose
concrete shape misses the member-access precondition, the dispatcher
never fails and degrades the node to the transparent marker call
`hook(...)` wrapped around the node's default-built subtree — which is
exactly `hook(originalExpressionText)` whenever no rule fires inside
the node (final conjunct); a deletion whose target is not a member
access is left unrewritten (also without failing). -/
theorem c9_fallthrough_amended :
    (∀ (text : List Char) (pos strt fin : Nat) (left opTok right : TsNode),
      isAssignmentOperator (tokKindOf opTok) = true → isMemberKind left = false →
      Chunk.flatten (findEdits text (.mk .binaryExpression pos strt fin
          (.cons left (.cons opTok (.cons right .nil))))) =
        str "assign(" ++ Chunk.flatten (createSourceNode text
          (.mk .binaryExpression pos strt fin
            (.cons left (.cons opTok (.cons right .nil))))) ++ str ")") ∧
    (∀ (text : List Char) (pos strt fin : Nat) (operand : TsNode) (op : TokKind),
      (op = TokKind.plusPlus ∨ op = TokKind.minusMinus) →
      isMemberKind operand = false →
      Chunk.flatten (findEdits text (.mk (.prefixUnaryExpression op) pos strt fin
          (.cons operand .nil))) =
        str "assign(" ++ Chunk.flatten (createSourceNode text
          (.mk (.prefixUnaryExpression op) pos strt fin (.cons operand .nil))) ++
          str ")") ∧
    (∀ (text : List Char) (pos strt fin : Nat) (operand : TsNode) (op : TokKind),
      (op = TokKind.plusPlus ∨ op = TokKind.minusMinus) →
      isMemberKind operand = false →
      Chunk.flatten (findEdits text (.mk (.postfixUnaryExpression op) pos strt fin
          (.cons operand .nil))) =
        str "assign(" ++ Chunk.flatten (createSourceNode text
          (.mk (.postfixUnaryExpression op) pos strt fin (.cons operand .nil))) ++
          str ")") ∧
    (∀ (text : List Char) (pos strt fin : Nat) (expr : TsNode),
      isMemberKind expr = false →
      Chunk.flatten (findEdits text (.mk .deleteExpression pos strt fin
          (.cons expr .nil))) =
        Chunk.flatten (createSourceNode text
          (.mk .deleteExpression pos strt fin (.cons expr .nil)))) ∧
    (∀ (text : List Char) (n : TsNode), nodeWF n = true →
      ruleFreeList n.children = true →
      Chunk.flatten (createSourceNode text n) = extract text n.pos (n.fin - n.pos)) := by
  refine ⟨?_, ?_, ?_, ?_, ?_⟩
  · intro text pos strt fin left opTok right hA hm
    rw [findEdits, findEditsDispatch, if_pos hA, createAssignment,
      if_pos (by simp [hm]), createSourceNode]
    simp [flatten_nodeOf, childrenOf_nodeOf, flattenL, flattenL_append, flatten_lit]
  · intro text pos strt fin operand op hop hm
    rw [findEdits, findEditsDispatch, if_pos hop, createUpdateAssignment,
      if_pos (by simp [hm]), createSourceNode]
    simp [flatten_nodeOf, childrenOf_nodeOf, flattenL, flattenL_append, flatten_lit]
  · intro text pos strt fin operand op hop hm
    rw [findEdits, findEditsDispatch, if_pos hop, createUpdateAssignment,
      if_pos (by simp [hm]), createSourceNode]
    simp [flatten_nodeOf, childrenOf_nodeOf, flattenL, flattenL_append, flatten_lit]
  · intro text pos strt fin expr hm
    rw [findEdits, findEditsDispatch, if_neg (by simp [hm])]
  · intro text n hwf hrl
    cases n with
    | mk k p s f cs =>
        simp only [nodeWF, Bool.and_eq_true, decide_eq_true_eq] at hwf
        obtain ⟨⟨hps, hsf⟩, hcw⟩ := hwf
        simp only [TsNode.children] at hrl
        simp only [TsNode.pos, TsNode.fin]
        rw [createSourceNode, flatten_nodeOf,
          loop_extract text cs.sizeL cs p f (Nat.le_refl _) hcw hrl]

/-- Witness for C9 (amended) at `x = y`, `x++` and `delete x`: the
first two degrade to the marker call around their original text, the
deletion stays as written. -/
theorem c9_fallthrough_amended_witness :
    Chunk.flatten (findEdits c9aText c9aNode) = str "assign(" ++ c9aText ++ str ")" ∧
    Chunk.flatten (findEdits c9uText c9uNode) = str "assign(" ++ c9uText ++ str ")" ∧
    Chunk.flatten (findEdits c9Text c9Node) = Chunk.flatten (createSourceNode c9Text c9Node) := by
  obtain ⟨ha, _, hpost, hdel, _⟩ := c9_fallthrough_amended
  refine ⟨?_, ?_, ?_⟩
  · have h := ha c9aText 0 0 5 (.mk .other 0 0 1 .nil)
      (.mk (.token .firstAssignment) 1 2 3 .nil) (.mk .other 3 4 5 .nil)
      (by decide) (by decide)
    rw [show c9aNode = .mk .binaryExpression 0 0 5
        (.cons (.mk .other 0 0 1 .nil)
          (.cons (.mk (.token .firstAssignment) 1 2 3 .nil)
            (.cons (.mk .other 3 4 5 .nil) .nil))) from rfl, h]
    decide
  · have h := hpost c9uText 0 0 3 (.mk .other 0 0 1 .nil) TokKind.plusPlus
      (Or.inl rfl) (by decide)
    rw [show c9uNode = .mk (.postfixUnaryExpression .plusPlus) 0 0 3
        (.cons (.mk .other 0 0 1 .nil) .nil) from rfl, h]
    decide
  · have h := hdel c9Text 0 0 8 (.mk .other 6 7 8 .nil) (by decide)
    rw [show c9Node = .mk .deleteExpression 0 0 8
        (.cons (.mk .other 6 7 8 .nil) .nil) from rfl, h]

/-- C6 (counterexample): a chain `C extends B`, `B extends
<framework default>` where the intermediate symbol is named `B`.  Under
the claim's reading (recurse through intermediate class declarations
whenever the combined name-and-file match fails), the sentinel is
transitively reached, but `extendsClass` answers `false`: it recurses
only when the resolved symbol already bears the sentinel name. -/
theorem c6_extends_counterexample :
    reachesSentinelSpec c6Outer "default" "core/component" = true ∧
    extendsClass c6Outer "default" "core/component" = false := by
  decide

theorem firstExtendsClause_isExt :
    ∀ (k : Nat) (cs : HClauseList) (cl : HClause), cs.len ≤ k →
      firstExtendsClause cs = some cl → cl.isExtendsToken = true := by
  intro k
  induction k with
  | zero =>
      intro cs cl hl h
      cases cs with
      | nil => simp [firstExtendsClause] at h
      | cons c rest => simp [HClauseList.len] at hl
  | succ k ih =>
      intro cs cl hl h
      cases cs with
      | nil => simp [firstExtendsClause] at h
      | cons c rest =>
          by_cases hc : c.isExtendsToken = true
          · rw [firstExtendsClause, if_pos hc] at h
            cases h
            exact hc
          · rw [firstExtendsClause, if_neg hc] at h
            exact ih rest cl (by simp [HClauseList.len] at hl; omega) h

theorem firstExtendsClause_size :
    ∀ (k : Nat) (cs : HClauseList) (cl : HClause), cs.len ≤ k →
      firstExtendsClause cs = some cl → cl.sizeHC ≤ cs.sizeHL := by
  intro k
  induction k with
  | zero =>
      intro cs cl hl h
      cases cs with
      | nil => simp [firstExtendsClause] at h
      | cons c rest => simp [HClauseList.len] at hl
  | succ k ih =>
      intro cs cl hl h
      cases cs with
      | nil => simp [firstExtendsClause] at h
      | cons c rest =>
          by_cases hc : c.isExtendsToken = true
          · rw [firstExtendsClause, if_pos hc] at h
            cases h
            simp [HClauseList.sizeHL]
            omega
          · rw [firstExtendsClause, if_neg hc] at h
            have := ih rest cl (by simp [HClauseList.len] at hl; omega) h
            simp [HClauseList.sizeHL]
            omega

/-- The clause loop of `extendsClass` processes exactly the first
`extends` clause. -/
theorem extendsLoop_eq (name fromPath : String) :
    ∀ (k : Nat) (cs : HClauseList), cs.len ≤ k →
      extendsLoop cs name fromPath =
        (match firstExtendsClause cs with
         | none => false
         | some (.mk _ symName vdecl) =>
             if symName = name then
               match vdecl with
               | some (.mk file asClass) =>
                   if sentinelFileMatch fromPath file then true
                   else
                     match asClass with
                     | some c => extendsClass c name fromPath
                     | none => false
               | none => false
             else false) := by
  intro k
  induction k with
  | zero =>
      intro cs hl
      cases cs with
      | nil => rfl
      | cons c rest => simp [HClauseList.len] at hl
  | succ k ih =>
      intro cs hl
      cases cs with
      | nil => rfl
      | cons c rest =>
          cases c with
          | mk isExt sym vd =>
              cases isExt with
              | false =>
                  rw [extendsLoop.eq_def]
                  simp only [if_true]
                  rw [ih rest (by simp [HClauseList.len] at hl; omega)]
                  rw [firstExtendsClause, if_neg (by simp [HClause.isExtendsToken])]
              | true =>
                  rw [extendsLoop.eq_def]
                  simp only []
                  rw [if_neg (by decide : ¬(true = false))]
                  rw [firstExtendsClause,
                    if_pos (show (HClause.mk true sym vd).isExtendsToken = true from rfl)]

theorem extends_to_chain (name fromPath : String) :
    ∀ (k : Nat) (n : ClassNode), n.sizeC ≤ k →
      extendsClass n name fromPath = true → SentinelChain name fromPath n := by
  intro k
  induction k with
  | zero =>
      intro n hsz h
      exfalso
      cases n with
      | mk o => cases o <;> simp [ClassNode.sizeC] at hsz
  | succ k ih =>
      intro n hsz h
      cases n with
      | mk o =>
          cases o with
          | none => simp [extendsClass] at h
          | some cs =>
              rw [extendsClass,
                extendsLoop_eq name fromPath cs.len cs (Nat.le_refl _)] at h
              cases hfe : firstExtendsClause cs with
              | none => rw [hfe] at h; simp at h
              | some cl =>
                  rw [hfe] at h
                  cases cl with
                  | mk isExt sym vd =>
                      have hext : isExt = true := by
                        simpa [HClause.isExtendsToken] using
                          firstExtendsClause_isExt cs.len cs (.mk isExt sym vd)
                            (Nat.le_refl _) hfe
                      subst hext
                      simp only [] at h
                      by_cases hsym : sym = name
                      · rw [if_pos hsym] at h
                        rw [hsym] at hfe
                        cases vd with
                        | none => simp at h
                        | some d =>
                            cases d with
                            | mk file asClass =>
                                simp only [] at h
                                by_cases hfm : sentinelFileMatch fromPath file = true
                                · exact SentinelChain.found cs file asClass hfe hfm
                                · rw [if_neg hfm] at h
                                  cases asClass with
                                  | none => simp at h
                                  | some c =>
                                      simp only [] at h
                                      have hszc : c.sizeC ≤ k := by
                                        have hb := firstExtendsClause_size cs.len cs
                                          (.mk true name (some (.mk file (some c))))
                                          (Nat.le_refl _) hfe
                                        simp [HClause.sizeHC, DeclInfo.sizeD,
                                          ClassNode.sizeC] at hb hsz
                                        omega
                                      exact SentinelChain.step cs file c hfe
                                        (by simpa using hfm) (ih c hszc h)
                      · rw [if_neg hsym] at h
                        simp at h

theorem chain_to_extends {name fromPath : String} {n : ClassNode}
    (h : SentinelChain name fromPath n) :
    extendsClass n name fromPath = true := by
  induction h with
  | found cs file asClass h1 h2 =>
      rw [extendsClass, extendsLoop_eq name fromPath cs.len cs (Nat.le_refl _), h1]
      simp [h2]
  | step cs file c h1 h2 _ ih =>
      rw [extendsClass, extendsLoop_eq name fromPath cs.len cs (Nat.le_refl _), h1]
      simp [h2, ih]

/-- C6 (amended): `extendsClass(classDecl, sentinelName,
sentinelModulePath)` returns true if and only if there is a chain of
heritage resolutions from the class in which EVERY link's first
`extends` clause resolves to a symbol whose simple name equals the
sentinel name (the resolver breaks off, answering false, at the first
link whose symbol bears any other name), intermediate links' declaring
files do not match while their declarations are class declarations to
recurse into, and the final link's declaring file ends with
`/node_modules/mahalo/<sentinelModulePath>.ts` (a suffix match of the
canonical resolved path, exact in the module path).  In particular a
class with no extends clause, and a same-named class declared outside
the framework whose own chain reaches no match, yield false. -/
theorem c6_extends_characterization (n : ClassNode) (name fromPath : String) :
    extendsClass n name fromPath = true ↔ SentinelChain name fromPath n :=
  ⟨extends_to_chain name fromPath n.sizeC n (Nat.le_refl _), chain_to_extends⟩

/-- C7: evaluating the single synthesized statement
`P = P ? Object.assign(P, V) : V;` merges the newly extracted table `V`
shallowly into a pre-existing table: entries of `V` are present
afterwards, pre-existing entries whose keys `V` does not mention are
never deleted, and with no prior table the property is initialized
directly to `V`; and `createInject` emits exactly one such statement
precisely when the extracted table is non-empty. -/
theorem c7_metadata_merge (prior v : Table) :
    (∀ k, v k = none → appendPropertySem (some prior) v k = prior k) ∧
    (∀ k x, v k = some x → appendPropertySem (some prior) v k = some x) ∧
    (∀ k, appendPropertySem none v k = v k) ∧
    (∀ (className : String) (inject : List (String × String)),
      inject.length ≠ 0 →
      createInject className inject =
        some (appendProperty (className ++ ".inject")
          ("\x7b" ++ String.intercalate ","
            (inject.map fun injection => injection.1 ++ ":" ++ injection.2) ++ "\x7d"))) ∧
    (∀ className : String, createInject className [] = none) := by
  refine ⟨?_, ?_, fun _ => rfl, ?_, fun _ => rfl⟩
  · intro k hk
    simp [appendPropertySem, objectAssignSem, hk]
  · intro k x hk
    simp [appendPropertySem, objectAssignSem, hk]
  · intro className inject h
    rw [createInject, if_neg h]

/-- Witness for C7 with prior table `{old: "1"}` and new table
`{new: "2"}`: the merge keeps `old`, adds `new`, and a one-entry table
triggers the statement emission. -/
theorem c7_metadata_merge_witness :
    demoNew "old" = none ∧
    appendPropertySem (some demoPrior) demoNew "old" = demoPrior "old" ∧
    appendPropertySem (some demoPrior) demoNew "new" = some "2" ∧
    appendPropertySem none demoNew "new" = demoNew "new" ∧
    createInject "C" [("dep", "Dep /* inject */")] =
      some "C.inject = C.inject ? Object.assign(C.inject, {dep:Dep /* inject */}) : {dep:Dep /* inject */};" := by
  have h := c7_metadata_merge demoPrior demoNew
  refine ⟨rfl, h.1 "old" rfl, h.2.1 "new" "2" rfl, h.2.2.1 "new", ?_⟩
  rw [h.2.2.2.1 "C" [("dep", "Dep /* inject */")] (by decide)]
  rfl

/-- C8: the composed position map.  With no first-stage map the
lowering pass's map is returned verbatim.  Otherwise: a lowering-pass
pair whose original-side position has no covering entry in the
first-stage map (it lies in synthesized text) contributes nothing — no
pair at its generated position appears in the composed map (given that
the lowering map's generated positions are distinct, as positions of a
map are); and a pair whose original-side position is covered resolves
to the exact original line and column of the covering entry, keeping
its generated position, source label and symbol name, while the
composed map's `sources` are the first-stage map's `sources` (the
original file identity). -/
theorem c8_map_composition (mm ts : RawSourceMap) (mp : SMMapping) :
    (mergeSourceMaps none ts = ts) ∧
    (mp ∈ ts.mappings →
      originalPositionFor mm mp.originalLine mp.originalColumn = none →
      ts.mappings.Pairwise (fun a b =>
        (a.generatedLine, a.generatedColumn) ≠ (b.generatedLine, b.generatedColumn)) →
      ∀ m' ∈ (mergeSourceMaps (some mm) ts).mappings,
        (m'.generatedLine, m'.generatedColumn) ≠
          (mp.generatedLine, mp.generatedColumn)) ∧
    (∀ o : OrigPos, mp ∈ ts.mappings →
      originalPositionFor mm mp.originalLine mp.originalColumn = some o →
      ({ generatedLine := mp.generatedLine, generatedColumn := mp.generatedColumn,
         originalLine := o.line, originalColumn := o.column,
         source := mp.source, name := mp.name } : SMMapping) ∈
        (mergeSourceMaps (some mm) ts).mappings ∧
      (mergeSourceMaps (some mm) ts).sources = mm.sources) := by
  refine ⟨rfl, ?_, ?_⟩
  · intro hmem hnone hpw m' hm'
    simp only [mergeSourceMaps, List.mem_filterMap] at hm'
    obtain ⟨a, hamem, ha⟩ := hm'
    have hgen : m'.generatedLine = a.generatedLine ∧
        m'.generatedColumn = a.generatedColumn := by
      unfold composeMapping at ha
      cases hoa : originalPositionFor mm a.originalLine a.originalColumn with
      | none => rw [hoa] at ha; cases ha
      | some o =>
          rw [hoa] at ha
          cases ha
          exact ⟨rfl, rfl⟩
    intro hcontra
    by_cases hab : a = mp
    · subst hab
      simp [composeMapping, hnone] at ha
    · have hr := hpw.forall (fun _ _ h => Ne.symm h) hamem hmem hab
      exact hr (by rw [← hgen.1, ← hgen.2]; exact hcontra)
  · intro o hmem hsome
    constructor
    · simp only [mergeSourceMaps, List.mem_filterMap]
      exact ⟨mp, hmem, by simp [composeMapping, hsome]⟩
    · rfl

/-- Witness for C8 with the demo maps: the no-first-map case is the
identity; the pair whose original side lies on uncovered line 5 leaves
no composed pair at its generated position `(2,0)`; the covered pair
composes to the exact original `(1,0)`; and the composed `sources` are
the first-stage map's. -/
theorem c8_map_composition_witness :
    mergeSourceMaps none tsDemo = tsDemo ∧
    (∀ m' ∈ (mergeSourceMaps (some mmDemo) tsDemo).mappings,
      (m'.generatedLine, m'.generatedColumn) ≠ (2, 0)) ∧
    ({ generatedLine := 1, generatedColumn := 0, originalLine := 1,
       originalColumn := 0, source := some "int.ts", name := none } : SMMapping) ∈
      (mergeSourceMaps (some mmDemo) tsDemo).mappings ∧
    (mergeSourceMaps (some mmDemo) tsDemo).sources = mmDemo.sources := by
  have h := c8_map_composition mmDemo tsDemo tsDemoDropped
  have hkept := c8_map_composition mmDemo tsDemo tsDemoKept
  refine ⟨h.1, ?_, ?_, ?_⟩
  · intro m' hm'
    have := h.2.1 (by decide) (by decide) (by decide) m' hm'
    simpa [tsDemoDropped] using this
  · have := (hkept.2.2 ⟨1, 0, "a.ts"⟩ (by decide) (by decide)).1
    simpa [tsDemoKept] using this
  · exact (hkept.2.2 ⟨1, 0, "a.ts"⟩ (by decide) (by decide)).2

/-- C10: for a compilation unit whose resolved path lies under
`/node_modules/mahalo/` or `/node_modules/core-js/`, the pipeline only
transpiles: the guarded rewrite stage (identifier collection, rule
dispatch, hook import, first-stage map) never runs — the result is the
same for EVERY possible rewrite stage — and the returned map is the
lowering pass's map alone (`mergeSourceMaps` with an absent first-stage
map). -/
theorem c10_excluded_not_rewritten
    (transpile rewriteStage : String → String × RawSourceMap)
    (fileName sourceText : String) (h : isExcludedPath fileName = true) :
    mahaloTranspilerModel transpile rewriteStage fileName sourceText =
      { fileName := fileName, text := (transpile sourceText).1,
        map := (transpile sourceText).2 } := by
  simp [mahaloTranspilerModel, h, mergeSourceMaps]

/-- Witness for C10 at a path under `/node_modules/mahalo/`: the output
text is the transpile of the untouched source and the map is the
lowering map verbatim, even though the supplied rewrite stage would
have replaced everything. -/
theorem c10_excluded_not_rewritten_witness :
    isExcludedPath "/p/node_modules/mahalo/core/view.ts" = true ∧
    mahaloTranspilerModel (fun s => (s ++ "|low", mmDemo))
        (fun _ => ("REWRITTEN", tsDemo))
        "/p/node_modules/mahalo/core/view.ts" "var x = 1" =
      { fileName := "/p/node_modules/mahalo/core/view.ts",
        text := "var x = 1|low", map := mmDemo } := by
  refine ⟨by decide, ?_⟩
  rw [c10_excluded_not_rewritten (fun s => (s ++ "|low", mmDemo))
    (fun _ => ("REWRITTEN", tsDemo)) "/p/node_modules/mahalo/core/view.ts"
    "var x = 1" (by decide)]
  rfl

/-- Witness for C6 (amended) at the direct sentinel link: the class
whose first extends clause resolves to `default` declared in the
framework's component module is accepted, matching its one-step chain. -/
theorem c6_extends_characterization_witness :
    extendsClass c6Inner "default" "core/component" = true ∧
    SentinelChain "default" "core/component" c6Inner := by
  have hchain : SentinelChain "default" "core/component" c6Inner :=
    SentinelChain.found _ c6MahaloFile none rfl (by decide)
  exact ⟨(c6_extends_characterization c6Inner "default" "core/component").mpr hchain,
    hchain⟩
